import Mathlib

/-!
# Verification of the base64 codec (src/base64.cpp)

A shallow embedding of the C++ base64 codec into Lean 4.  Byte sequences
are modelled as `List Nat` (each element a byte value `< 256`), strings of
encoded characters as `List Char`, and the two C++ exceptions
(`std::runtime_error` from `pos_of_char` and `std::out_of_range` from
`std::string::at`) as the two constructors of `DecodeError`, with fallible
functions returning `Except DecodeError _`.
-/

/-- The standard base64 alphabet (`encode_table` in base64.cpp). -/
def encode_table : List Char :=
  ("ABCDEFGHIJKLMNOPQRSTUVWXYZabcdefghijklmnopqrstuvwxyz0123456789+/").toList

/-- The URL-safe base64 alphabet (`encode_table_url` in base64.cpp). -/
def encode_table_url : List Char :=
  ("ABCDEFGHIJKLMNOPQRSTUVWXYZabcdefghijklmnopqrstuvwxyz0123456789-_").toList

/-- `max_encode_char = static_cast<size_t>('z') + 1 = 123`. -/
def max_encode_char : Nat := ('z').toNat + 1

/-- The sentinel stored in unused slots of the reverse table (`0xff`). -/
def decode_placeholder : Nat := 0xff

/-- `generate_decode_table`: an array of `max_encode_char` entries, filled
with `decode_placeholder` and then overwritten at index `ch` by the offset
of `ch` in `str`, for each character of `str` in order. -/
def generate_decode_table (str : List Char) : List Nat :=
  (str.foldl (fun acc ch => (acc.1.set ch.toNat acc.2, acc.2 + 1))
    (List.replicate max_encode_char decode_placeholder, 0)).1

/-- `decode_table`, built once from the standard alphabet. -/
def decode_table : List Nat := generate_decode_table encode_table

/-- The two failure modes of `base64_decode`:
`invalidInput` models the `std::runtime_error` thrown by `pos_of_char`,
`outOfRange` models the `std::out_of_range` thrown by `std::string::at`
when a chunk's mandatory second character is missing. -/
inductive DecodeError where
  | invalidInput : DecodeError
  | outOfRange : DecodeError
deriving DecidableEq

instance {ε α : Type} [DecidableEq ε] [DecidableEq α] : DecidableEq (Except ε α) :=
  fun a b =>
    match a, b with
    | .error x, .error y =>
      if h : x = y then .isTrue (by rw [h])
      else .isFalse (fun hc => h (Except.error.inj hc))
    | .ok x, .ok y =>
      if h : x = y then .isTrue (by rw [h])
      else .isFalse (fun hc => h (Except.ok.inj hc))
    | .error _, .ok _ => .isFalse (fun hc => Except.noConfusion hc)
    | .ok _, .error _ => .isFalse (fun hc => Except.noConfusion hc)

/-- `pos_of_char`: reject character codes `≥ max_encode_char`, reject
characters whose reverse-table entry is the placeholder, otherwise return
the table entry (the character's 6-bit value). -/
def pos_of_char (chr : Char) : Except DecodeError Nat :=
  if chr.toNat ≥ max_encode_char then .error .invalidInput
  else if decode_table.getD chr.toNat decode_placeholder = decode_placeholder then
    .error .invalidInput
  else .ok (decode_table.getD chr.toNat decode_placeholder)

/-- The encoding loop of `base64_encode`: consume the input three bytes at
a time; a full 3-byte group yields 4 alphabet characters, a trailing group
of 2 bytes yields 3 characters plus one `trailing_char`, a trailing group
of 1 byte yields 2 characters plus two `trailing_char`s.  Bit extraction
mirrors the C++ mask-and-shift expressions exactly. -/
def encodeChunks (table : List Char) (trailing_char : Char) : List Nat → List Char
  | [] => []
  | [b0] =>
    [table.getD ((b0 &&& 0xfc) >>> 2) 'A',
     table.getD ((b0 &&& 0x03) <<< 4) 'A',
     trailing_char, trailing_char]
  | [b0, b1] =>
    [table.getD ((b0 &&& 0xfc) >>> 2) 'A',
     table.getD (((b0 &&& 0x03) <<< 4) + ((b1 &&& 0xf0) >>> 4)) 'A',
     table.getD ((b1 &&& 0x0f) <<< 2) 'A',
     trailing_char]
  | b0 :: b1 :: b2 :: rest =>
    table.getD ((b0 &&& 0xfc) >>> 2) 'A' ::
    table.getD (((b0 &&& 0x03) <<< 4) + ((b1 &&& 0xf0) >>> 4)) 'A' ::
    table.getD (((b1 &&& 0x0f) <<< 2) + ((b2 &&& 0xc0) >>> 6)) 'A' ::
    table.getD (b2 &&& 0x3f) 'A' ::
    encodeChunks table trailing_char rest

/-- `base64_encode`: choose alphabet and padding character from the `url`
flag and run the encoding loop. -/
def base64_encode (s : List Nat) (url : Bool) : List Char :=
  encodeChunks (if url then encode_table_url else encode_table)
    (if url then '.' else '=') s

/-- The `while (pos < str.size())` loop of `insert_linebreaks`, which
repeatedly inserts `'\n'` after each `distance` characters.  The loop is
expressed by recursion on the untouched suffix, with an explicit counter
bounding the number of insertions (the input length always suffices for
`distance ≥ 1`; the source only ever uses distances 64 and 76). -/
def insertGo (distance : Nat) : Nat → List Char → List Char
  | 0, s => s
  | fuel + 1, s =>
    if s.length ≤ distance then s
    else s.take distance ++ '\n' :: insertGo distance fuel (s.drop distance)

/-- `insert_linebreaks`: empty input is returned unchanged, otherwise run
the insertion loop. -/
def insert_linebreaks (str : List Char) (distance : Nat) : List Char :=
  if str = [] then [] else insertGo distance str.length str

/-- `base64_encode_pem`: standard encoding wrapped at 64 columns. -/
def base64_encode_pem (s : List Nat) : List Char :=
  insert_linebreaks (base64_encode s false) 64

/-- `base64_encode_mime`: standard encoding wrapped at 76 columns. -/
def base64_encode_mime (s : List Nat) : List Char :=
  insert_linebreaks (base64_encode s false) 76

/-- The decoding loop of `base64_decode`, consuming the input in chunks of
four characters.  Each iteration first reads the chunk's second character
(`.at(pos + 1)` — out of range on a 1-character chunk), looks up its value
and then the first character's value (in that order, as in the source),
emits the first output byte, and emits the second and third bytes only when
the third and fourth characters exist and are not `'='` or `'.'`. -/
def decodeChunks : List Char → Except DecodeError (List Nat)
  | [] => .ok []
  | [_] => .error .outOfRange
  | [c0, c1] =>
    match pos_of_char c1 with
    | .error e => .error e
    | .ok pos1 =>
      match pos_of_char c0 with
      | .error e => .error e
      | .ok pos0 => .ok [(pos0 <<< 2) + ((pos1 &&& 0x30) >>> 4)]
  | [c0, c1, c2] =>
    match pos_of_char c1 with
    | .error e => .error e
    | .ok pos1 =>
      match pos_of_char c0 with
      | .error e => .error e
      | .ok pos0 =>
        if c2 ≠ '=' ∧ c2 ≠ '.' then
          match pos_of_char c2 with
          | .error e => .error e
          | .ok pos2 =>
            .ok [(pos0 <<< 2) + ((pos1 &&& 0x30) >>> 4),
                 ((pos1 &&& 0x0f) <<< 4) + ((pos2 &&& 0x3c) >>> 2)]
        else .ok [(pos0 <<< 2) + ((pos1 &&& 0x30) >>> 4)]
  | c0 :: c1 :: c2 :: c3 :: rest =>
    match pos_of_char c1 with
    | .error e => .error e
    | .ok pos1 =>
      match pos_of_char c0 with
      | .error e => .error e
      | .ok pos0 =>
        if c2 ≠ '=' ∧ c2 ≠ '.' then
          match pos_of_char c2 with
          | .error e => .error e
          | .ok pos2 =>
            if c3 ≠ '=' ∧ c3 ≠ '.' then
              match pos_of_char c3 with
              | .error e => .error e
              | .ok pos3 =>
                Except.map
                  (fun t => ((pos0 <<< 2) + ((pos1 &&& 0x30) >>> 4)) ::
                    (((pos1 &&& 0x0f) <<< 4) + ((pos2 &&& 0x3c) >>> 2)) ::
                    (((pos2 &&& 0x03) <<< 6) + pos3) :: t)
                  (decodeChunks rest)
            else
              Except.map
                (fun t => ((pos0 <<< 2) + ((pos1 &&& 0x30) >>> 4)) ::
                  (((pos1 &&& 0x0f) <<< 4) + ((pos2 &&& 0x3c) >>> 2)) :: t)
                (decodeChunks rest)
        else
          Except.map
            (fun t => ((pos0 <<< 2) + ((pos1 &&& 0x30) >>> 4)) :: t)
            (decodeChunks rest)

/-- `base64_decode`: empty input decodes to empty output; with
`remove_linebreaks` set, all `'\n'` characters are removed and the result
is decoded with the flag cleared (the single level of recursion of the
source is unfolded here, since the inner call always has the flag
cleared); otherwise the input is decoded chunkwise. -/
def base64_decode (encoded_string : List Char) (remove_linebreaks : Bool) :
    Except DecodeError (List Nat) :=
  if encoded_string = [] then .ok []
  else if remove_linebreaks then
    let copy := encoded_string.filter (fun c => c != '\n')
    if copy = [] then .ok [] else decodeChunks copy
  else decodeChunks encoded_string

/-! ### Arithmetic facts about the mask-and-shift expressions -/

set_option maxRecDepth 4000

theorem and_fc_shr : ∀ b < 256, (b &&& 0xfc) >>> 2 = b / 4 := by decide

theorem and_03_shl : ∀ b < 256, (b &&& 0x03) <<< 4 = b % 4 * 16 := by decide

theorem and_f0_shr : ∀ b < 256, (b &&& 0xf0) >>> 4 = b / 16 := by decide

theorem and_0f_shl : ∀ b < 256, (b &&& 0x0f) <<< 2 = b % 16 * 4 := by decide

theorem and_c0_shr : ∀ b < 256, (b &&& 0xc0) >>> 6 = b / 64 := by decide

theorem and_3f : ∀ b < 256, b &&& 0x3f = b % 64 := by decide

theorem and_30_shr : ∀ p < 64, (p &&& 0x30) >>> 4 = p / 16 := by decide

theorem and_0f_shl4 : ∀ p < 64, (p &&& 0x0f) <<< 4 = p % 16 * 16 := by decide

theorem and_3c_shr : ∀ p < 64, (p &&& 0x3c) >>> 2 = p / 4 := by decide

theorem and_03_shl6 : ∀ p < 64, (p &&& 0x03) <<< 6 = p % 4 * 64 := by decide

theorem shl2_eq (p : Nat) : p <<< 2 = p * 4 := by
  simp [Nat.shiftLeft_eq]

/-- Each index computed by the encoder is below 64, for arbitrary `Nat`
inputs (the masks alone bound the values). -/
theorem encode_index_bounds (b0 b1 b2 : Nat) :
    (b0 &&& 0xfc) >>> 2 < 64 ∧
    ((b0 &&& 0x03) <<< 4) + ((b1 &&& 0xf0) >>> 4) < 64 ∧
    ((b1 &&& 0x0f) <<< 2) + ((b2 &&& 0xc0) >>> 6) < 64 ∧
    b2 &&& 0x3f < 64 := by
  have h1 := Nat.and_le_right (n := b0) (m := 0xfc)
  have h2 := Nat.and_le_right (n := b0) (m := 0x03)
  have h3 := Nat.and_le_right (n := b1) (m := 0xf0)
  have h4 := Nat.and_le_right (n := b1) (m := 0x0f)
  have h5 := Nat.and_le_right (n := b2) (m := 0xc0)
  have h6 := Nat.and_le_right (n := b2) (m := 0x3f)
  have e4 : (2 : Nat) ^ 4 = 16 := by norm_num
  have e2 : (2 : Nat) ^ 2 = 4 := by norm_num
  have e6 : (2 : Nat) ^ 6 = 64 := by norm_num
  rw [Nat.shiftRight_eq_div_pow, Nat.shiftRight_eq_div_pow, Nat.shiftRight_eq_div_pow,
    Nat.shiftLeft_eq, Nat.shiftLeft_eq, e4, e2, e6]
  omega

/-! ### Facts about the alphabets and the reverse table -/

theorem pos_of_char_encode_table : ∀ i < 64, pos_of_char (encode_table.getD i 'A') = .ok i := by
  decide

theorem encode_table_not_special :
    ∀ i < 64, encode_table.getD i 'A' ≠ '=' ∧ encode_table.getD i 'A' ≠ '.' ∧
      encode_table.getD i 'A' ≠ '\n' := by decide

theorem url_table_eq_std : ∀ i < 62, encode_table_url.getD i 'A' = encode_table.getD i 'A' := by
  decide

theorem url_table_not_special :
    ∀ i < 64, encode_table_url.getD i 'A' ≠ '=' ∧ encode_table_url.getD i 'A' ≠ '.' ∧
      encode_table_url.getD i 'A' ≠ '\n' := by decide

theorem url_table_plain_lt62 :
    ∀ i < 64, encode_table_url.getD i 'A' ≠ '-' → encode_table_url.getD i 'A' ≠ '_' →
      i < 62 := by decide

theorem encode_table_getD_mem : ∀ i < 64, encode_table.getD i 'A' ∈ encode_table := by decide

theorem url_table_getD_mem : ∀ i < 64, encode_table_url.getD i 'A' ∈ encode_table_url := by
  decide

theorem pos_of_char_pad :
    pos_of_char '=' = .error .invalidInput ∧ pos_of_char '.' = .error .invalidInput := by decide

/-! ### Length of the encoder output -/

theorem encodeChunks_length : ∀ (table : List Char) (pad : Char) (B : List Nat),
    (encodeChunks table pad B).length = (B.length + 2) / 3 * 4
  | _, _, [] => by simp [encodeChunks]
  | _, _, [_] => by simp [encodeChunks]
  | _, _, [_, _] => by simp [encodeChunks]
  | table, pad, b0 :: b1 :: b2 :: rest => by
    have ih := encodeChunks_length table pad rest
    simp only [encodeChunks, List.length_cons, ih]
    omega

/-- Every character of the encoder output is either an alphabet character
(at an index below 64) or the padding character. -/
theorem encodeChunks_mem : ∀ (table : List Char) (pad : Char) (B : List Nat) (c : Char),
    c ∈ encodeChunks table pad B → (∃ i, i < 64 ∧ c = table.getD i 'A') ∨ c = pad
  | _, _, [], c => by simp [encodeChunks]
  | table, pad, [b0], c => by
    have hb := encode_index_bounds b0 0 0
    simp only [encodeChunks, List.mem_cons, List.not_mem_nil, or_false]
    rintro (rfl | rfl | rfl | rfl)
    · exact Or.inl ⟨_, hb.1, rfl⟩
    · exact Or.inl ⟨_, by have := hb.2.1; omega, rfl⟩
    · exact Or.inr rfl
    · exact Or.inr rfl
  | table, pad, [b0, b1], c => by
    have hb := encode_index_bounds b0 b1 0
    simp only [encodeChunks, List.mem_cons, List.not_mem_nil, or_false]
    rintro (rfl | rfl | rfl | rfl)
    · exact Or.inl ⟨_, hb.1, rfl⟩
    · exact Or.inl ⟨_, hb.2.1, rfl⟩
    · exact Or.inl ⟨_, by have := hb.2.2.1; omega, rfl⟩
    · exact Or.inr rfl
  | table, pad, b0 :: b1 :: b2 :: rest, c => by
    have hb := encode_index_bounds b0 b1 b2
    have ih := encodeChunks_mem table pad rest c
    simp only [encodeChunks, List.mem_cons] at ih ⊢
    rintro (rfl | rfl | rfl | rfl | hc)
    · exact Or.inl ⟨_, hb.1, rfl⟩
    · exact Or.inl ⟨_, hb.2.1, rfl⟩
    · exact Or.inl ⟨_, hb.2.2.1, rfl⟩
    · exact Or.inl ⟨_, hb.2.2.2, rfl⟩
    · exact ih hc

/-! ### Decoding inverts encoding (standard alphabet) -/

/-- Decoding the chunkwise standard-alphabet encoding of a byte sequence
recovers the byte sequence. -/
theorem decode_encode_std : ∀ B : List Nat, (∀ b ∈ B, b < 256) →
    decodeChunks (encodeChunks encode_table '=' B) = .ok B
  | [] => fun _ => by simp [encodeChunks, decodeChunks]
  | [b0] => fun h => by
    have hb0 : b0 < 256 := h b0 (by simp)
    have h1 := and_fc_shr b0 hb0
    have h2 := and_03_shl b0 hb0
    have hi0 : b0 / 4 < 64 := by omega
    have hi1 : b0 % 4 * 16 < 64 := by omega
    have hp0 := pos_of_char_encode_table _ hi0
    have hp1 := pos_of_char_encode_table _ hi1
    have hs := and_30_shr _ hi1
    simp only [encodeChunks, h1, h2, decodeChunks, hp0, hp1]
    rw [if_neg (by decide : ¬('=' ≠ '=' ∧ '=' ≠ '.'))]
    simp only [decodeChunks, Except.map, shl2_eq, hs, Except.ok.injEq, List.cons.injEq,
      and_true]
    omega
  | [b0, b1] => fun h => by
    have hb0 : b0 < 256 := h b0 (by simp)
    have hb1 : b1 < 256 := h b1 (by simp)
    have h1 := and_fc_shr b0 hb0
    have h2 := and_03_shl b0 hb0
    have h3 := and_f0_shr b1 hb1
    have h4 := and_0f_shl b1 hb1
    have hi0 : b0 / 4 < 64 := by omega
    have hi1 : b0 % 4 * 16 + b1 / 16 < 64 := by omega
    have hi2 : b1 % 16 * 4 < 64 := by omega
    have hp0 := pos_of_char_encode_table _ hi0
    have hp1 := pos_of_char_encode_table _ hi1
    have hp2 := pos_of_char_encode_table _ hi2
    have hc2 := encode_table_not_special _ hi2
    have hs1 := and_30_shr _ hi1
    have hs2 := and_0f_shl4 _ hi1
    have hs3 := and_3c_shr _ hi2
    simp only [encodeChunks, h1, h2, h3, h4, decodeChunks, hp0, hp1]
    rw [if_pos ⟨hc2.1, hc2.2.1⟩]
    simp only [hp2]
    rw [if_neg (by decide : ¬('=' ≠ '=' ∧ '=' ≠ '.'))]
    simp only [decodeChunks, Except.map, shl2_eq, hs1, hs2, hs3, Except.ok.injEq,
      List.cons.injEq, and_true]
    omega
  | b0 :: b1 :: b2 :: rest => fun h => by
    have hb0 : b0 < 256 := h b0 (by simp)
    have hb1 : b1 < 256 := h b1 (by simp)
    have hb2 : b2 < 256 := h b2 (by simp)
    have h1 := and_fc_shr b0 hb0
    have h2 := and_03_shl b0 hb0
    have h3 := and_f0_shr b1 hb1
    have h4 := and_0f_shl b1 hb1
    have h5 := and_c0_shr b2 hb2
    have h6 := and_3f b2 hb2
    have hi0 : b0 / 4 < 64 := by omega
    have hi1 : b0 % 4 * 16 + b1 / 16 < 64 := by omega
    have hi2 : b1 % 16 * 4 + b2 / 64 < 64 := by omega
    have hi3 : b2 % 64 < 64 := by omega
    have hp0 := pos_of_char_encode_table _ hi0
    have hp1 := pos_of_char_encode_table _ hi1
    have hp2 := pos_of_char_encode_table _ hi2
    have hp3 := pos_of_char_encode_table _ hi3
    have hc2 := encode_table_not_special _ hi2
    have hc3 := encode_table_not_special _ hi3
    have hs1 := and_30_shr _ hi1
    have hs2 := and_0f_shl4 _ hi1
    have hs3 := and_3c_shr _ hi2
    have hs4 := and_03_shl6 _ hi2
    have ih := decode_encode_std rest (fun b hb => h b (by simp [hb]))
    simp only [encodeChunks, h1, h2, h3, h4, h5, h6, decodeChunks, hp0, hp1]
    rw [if_pos ⟨hc2.1, hc2.2.1⟩]
    simp only [hp2]
    rw [if_pos ⟨hc3.1, hc3.2.1⟩]
    simp only [hp3, ih, Except.map, shl2_eq, hs1, hs2, hs3, hs4, Except.ok.injEq,
      List.cons.injEq]
    refine ⟨by omega, by omega, by omega, trivial⟩

/-- Decoding the chunkwise URL-safe encoding recovers the byte sequence,
provided the encoded form contains neither `'-'` nor `'_'` (those two
characters are absent from the reverse table, which is built from the
standard alphabet only). -/
theorem decode_encode_url : ∀ B : List Nat, (∀ b ∈ B, b < 256) →
    (∀ c ∈ encodeChunks encode_table_url '.' B, c ≠ '-' ∧ c ≠ '_') →
    decodeChunks (encodeChunks encode_table_url '.' B) = .ok B
  | [] => fun _ _ => by simp [encodeChunks, decodeChunks]
  | [b0] => fun h hnd => by
    have hb0 : b0 < 256 := h b0 (by simp)
    have h1 := and_fc_shr b0 hb0
    have h2 := and_03_shl b0 hb0
    have hi0 : b0 / 4 < 64 := by omega
    have hi1 : b0 % 4 * 16 < 64 := by omega
    have hm0 := hnd (encode_table_url.getD ((b0 &&& 0xfc) >>> 2) 'A') (by simp [encodeChunks])
    have hm1 := hnd (encode_table_url.getD ((b0 &&& 0x03) <<< 4) 'A') (by simp [encodeChunks])
    rw [h1] at hm0
    rw [h2] at hm1
    have he0 := url_table_eq_std _ (url_table_plain_lt62 _ hi0 hm0.1 hm0.2)
    have he1 := url_table_eq_std _ (url_table_plain_lt62 _ hi1 hm1.1 hm1.2)
    have hp0 := pos_of_char_encode_table _ hi0
    have hp1 := pos_of_char_encode_table _ hi1
    rw [← he0] at hp0
    rw [← he1] at hp1
    have hs := and_30_shr _ hi1
    simp only [encodeChunks, h1, h2, decodeChunks, hp0, hp1]
    rw [if_neg (by decide : ¬('.' ≠ '=' ∧ '.' ≠ '.'))]
    simp only [decodeChunks, Except.map, shl2_eq, hs, Except.ok.injEq, List.cons.injEq,
      and_true]
    omega
  | [b0, b1] => fun h hnd => by
    have hb0 : b0 < 256 := h b0 (by simp)
    have hb1 : b1 < 256 := h b1 (by simp)
    have h1 := and_fc_shr b0 hb0
    have h2 := and_03_shl b0 hb0
    have h3 := and_f0_shr b1 hb1
    have h4 := and_0f_shl b1 hb1
    have hi0 : b0 / 4 < 64 := by omega
    have hi1 : b0 % 4 * 16 + b1 / 16 < 64 := by omega
    have hi2 : b1 % 16 * 4 < 64 := by omega
    have hm0 := hnd (encode_table_url.getD ((b0 &&& 0xfc) >>> 2) 'A') (by simp [encodeChunks])
    have hm1 := hnd (encode_table_url.getD (((b0 &&& 0x03) <<< 4) + ((b1 &&& 0xf0) >>> 4)) 'A')
      (by simp [encodeChunks])
    have hm2 := hnd (encode_table_url.getD ((b1 &&& 0x0f) <<< 2) 'A') (by simp [encodeChunks])
    rw [h1] at hm0
    rw [h2, h3] at hm1
    rw [h4] at hm2
    have he0 := url_table_eq_std _ (url_table_plain_lt62 _ hi0 hm0.1 hm0.2)
    have he1 := url_table_eq_std _ (url_table_plain_lt62 _ hi1 hm1.1 hm1.2)
    have he2 := url_table_eq_std _ (url_table_plain_lt62 _ hi2 hm2.1 hm2.2)
    have hp0 := pos_of_char_encode_table _ hi0
    have hp1 := pos_of_char_encode_table _ hi1
    have hp2 := pos_of_char_encode_table _ hi2
    rw [← he0] at hp0
    rw [← he1] at hp1
    rw [← he2] at hp2
    have hc2 := url_table_not_special _ hi2
    have hs1 := and_30_shr _ hi1
    have hs2 := and_0f_shl4 _ hi1
    have hs3 := and_3c_shr _ hi2
    simp only [encodeChunks, h1, h2, h3, h4, decodeChunks, hp0, hp1]
    rw [if_pos ⟨hc2.1, hc2.2.1⟩]
    simp only [hp2]
    rw [if_neg (by decide : ¬('.' ≠ '=' ∧ '.' ≠ '.'))]
    simp only [decodeChunks, Except.map, shl2_eq, hs1, hs2, hs3, Except.ok.injEq,
      List.cons.injEq, and_true]
    omega
  | b0 :: b1 :: b2 :: rest => fun h hnd => by
    have hb0 : b0 < 256 := h b0 (by simp)
    have hb1 : b1 < 256 := h b1 (by simp)
    have hb2 : b2 < 256 := h b2 (by simp)
    have h1 := and_fc_shr b0 hb0
    have h2 := and_03_shl b0 hb0
    have h3 := and_f0_shr b1 hb1
    have h4 := and_0f_shl b1 hb1
    have h5 := and_c0_shr b2 hb2
    have h6 := and_3f b2 hb2
    have hi0 : b0 / 4 < 64 := by omega
    have hi1 : b0 % 4 * 16 + b1 / 16 < 64 := by omega
    have hi2 : b1 % 16 * 4 + b2 / 64 < 64 := by omega
    have hi3 : b2 % 64 < 64 := by omega
    have hm0 := hnd (encode_table_url.getD ((b0 &&& 0xfc) >>> 2) 'A') (by simp [encodeChunks])
    have hm1 := hnd (encode_table_url.getD (((b0 &&& 0x03) <<< 4) + ((b1 &&& 0xf0) >>> 4)) 'A')
      (by simp [encodeChunks])
    have hm2 := hnd (encode_table_url.getD (((b1 &&& 0x0f) <<< 2) + ((b2 &&& 0xc0) >>> 6)) 'A')
      (by simp [encodeChunks])
    have hm3 := hnd (encode_table_url.getD (b2 &&& 0x3f) 'A') (by simp [encodeChunks])
    rw [h1] at hm0
    rw [h2, h3] at hm1
    rw [h4, h5] at hm2
    rw [h6] at hm3
    have he0 := url_table_eq_std _ (url_table_plain_lt62 _ hi0 hm0.1 hm0.2)
    have he1 := url_table_eq_std _ (url_table_plain_lt62 _ hi1 hm1.1 hm1.2)
    have he2 := url_table_eq_std _ (url_table_plain_lt62 _ hi2 hm2.1 hm2.2)
    have he3 := url_table_eq_std _ (url_table_plain_lt62 _ hi3 hm3.1 hm3.2)
    have hp0 := pos_of_char_encode_table _ hi0
    have hp1 := pos_of_char_encode_table _ hi1
    have hp2 := pos_of_char_encode_table _ hi2
    have hp3 := pos_of_char_encode_table _ hi3
    rw [← he0] at hp0
    rw [← he1] at hp1
    rw [← he2] at hp2
    rw [← he3] at hp3
    have hc2 := url_table_not_special _ hi2
    have hc3 := url_table_not_special _ hi3
    have hs1 := and_30_shr _ hi1
    have hs2 := and_0f_shl4 _ hi1
    have hs3 := and_3c_shr _ hi2
    have hs4 := and_03_shl6 _ hi2
    have ih := decode_encode_url rest (fun b hb => h b (by simp [hb]))
      (fun c hc => hnd c (by simp [encodeChunks, hc]))
    simp only [encodeChunks, h1, h2, h3, h4, h5, h6, decodeChunks, hp0, hp1]
    rw [if_pos ⟨hc2.1, hc2.2.1⟩]
    simp only [hp2]
    rw [if_pos ⟨hc3.1, hc3.2.1⟩]
    simp only [hp3, ih, Except.map, shl2_eq, hs1, hs2, hs3, hs4, Except.ok.injEq,
      List.cons.injEq]
    refine ⟨by omega, by omega, by omega, trivial⟩

/-- The two URL-safe-only characters are absent from the reverse table. -/
theorem pos_of_char_dash_underscore :
    pos_of_char '-' = .error .invalidInput ∧ pos_of_char '_' = .error .invalidInput := by
  decide

/-- A character with a successful reverse lookup is neither `'-'` nor
`'_'`. -/
theorem pos_ok_not_dash (c : Char) (v : Nat) (h : pos_of_char c = .ok v) :
    c ≠ '-' ∧ c ≠ '_' := by
  constructor <;> rintro rfl
  · rw [pos_of_char_dash_underscore.1] at h
    exact Except.noConfusion h
  · rw [pos_of_char_dash_underscore.2] at h
    exact Except.noConfusion h

/-- Looking up a URL-alphabet character in the reverse table either
succeeds with its index (when the character is not `'-'`/`'_'`) or fails
with the invalid-input error (when it is). -/
theorem url_char_lookup (i : Nat) (hi : i < 64) :
    pos_of_char (encode_table_url.getD i 'A') = .ok i ∨
    ((encode_table_url.getD i 'A' = '-' ∨ encode_table_url.getD i 'A' = '_') ∧
      pos_of_char (encode_table_url.getD i 'A') = .error .invalidInput) := by
  by_cases hd : encode_table_url.getD i 'A' = '-' ∨ encode_table_url.getD i 'A' = '_'
  · refine Or.inr ⟨hd, ?_⟩
    rcases hd with hd | hd <;> rw [hd]
    · exact pos_of_char_dash_underscore.1
    · exact pos_of_char_dash_underscore.2
  · push_neg at hd
    refine Or.inl ?_
    rw [url_table_eq_std _ (url_table_plain_lt62 _ hi hd.1 hd.2)]
    exact pos_of_char_encode_table _ hi

/-- When the URL-safe encoding of a byte sequence does contain `'-'` or
`'_'`, the decoding loop fails with the invalid-input error: every lookup
of an encoder-output character either succeeds or fails with that error,
and the loop reaches the first offending character. -/
theorem decode_encode_url_err : ∀ B : List Nat,
    ¬(∀ c ∈ encodeChunks encode_table_url '.' B, c ≠ '-' ∧ c ≠ '_') →
    decodeChunks (encodeChunks encode_table_url '.' B) = .error .invalidInput
  | [] => fun hbad => absurd (by simp [encodeChunks]) hbad
  | [b0] => fun hbad => by
    have hb := encode_index_bounds b0 0 0
    have hi0 : (b0 &&& 0xfc) >>> 2 < 64 := hb.1
    have hi1 : (b0 &&& 0x03) <<< 4 < 64 := by have := hb.2.1; omega
    rcases url_char_lookup _ hi1 with hp1 | ⟨_, herr1⟩
    · rcases url_char_lookup _ hi0 with hp0 | ⟨_, herr0⟩
      · refine absurd ?_ hbad
        intro c hc
        simp only [encodeChunks, List.mem_cons, List.not_mem_nil, or_false] at hc
        rcases hc with rfl | rfl | rfl | rfl
        · exact pos_ok_not_dash _ _ hp0
        · exact pos_ok_not_dash _ _ hp1
        · exact (by decide)
        · exact (by decide)
      · simp only [encodeChunks, decodeChunks, hp1, herr0]
    · simp only [encodeChunks, decodeChunks, herr1]
  | [b0, b1] => fun hbad => by
    have hb := encode_index_bounds b0 b1 0
    have hi0 : (b0 &&& 0xfc) >>> 2 < 64 := hb.1
    have hi1 : ((b0 &&& 0x03) <<< 4) + ((b1 &&& 0xf0) >>> 4) < 64 := hb.2.1
    have hi2 : (b1 &&& 0x0f) <<< 2 < 64 := by have := hb.2.2.1; omega
    rcases url_char_lookup _ hi1 with hp1 | ⟨_, herr1⟩
    · rcases url_char_lookup _ hi0 with hp0 | ⟨_, herr0⟩
      · rcases url_char_lookup _ hi2 with hp2 | ⟨_, herr2⟩
        · refine absurd ?_ hbad
          intro c hc
          simp only [encodeChunks, List.mem_cons, List.not_mem_nil, or_false] at hc
          rcases hc with rfl | rfl | rfl | rfl
          · exact pos_ok_not_dash _ _ hp0
          · exact pos_ok_not_dash _ _ hp1
          · exact pos_ok_not_dash _ _ hp2
          · exact (by decide)
        · have hc2 := url_table_not_special _ hi2
          simp only [encodeChunks, decodeChunks, hp1, hp0]
          rw [if_pos ⟨hc2.1, hc2.2.1⟩]
          simp only [herr2]
      · simp only [encodeChunks, decodeChunks, hp1, herr0]
    · simp only [encodeChunks, decodeChunks, herr1]
  | b0 :: b1 :: b2 :: rest => fun hbad => by
    have hb := encode_index_bounds b0 b1 b2
    have hi0 := hb.1
    have hi1 := hb.2.1
    have hi2 := hb.2.2.1
    have hi3 := hb.2.2.2
    rcases url_char_lookup _ hi1 with hp1 | ⟨_, herr1⟩
    · rcases url_char_lookup _ hi0 with hp0 | ⟨_, herr0⟩
      · rcases url_char_lookup _ hi2 with hp2 | ⟨_, herr2⟩
        · rcases url_char_lookup _ hi3 with hp3 | ⟨_, herr3⟩
          · have htail : ¬(∀ c ∈ encodeChunks encode_table_url '.' rest,
                c ≠ '-' ∧ c ≠ '_') := by
              intro hall
              refine hbad ?_
              intro c hc
              simp only [encodeChunks, List.mem_cons] at hc
              rcases hc with rfl | rfl | rfl | rfl | hc
              · exact pos_ok_not_dash _ _ hp0
              · exact pos_ok_not_dash _ _ hp1
              · exact pos_ok_not_dash _ _ hp2
              · exact pos_ok_not_dash _ _ hp3
              · exact hall c hc
            have ih := decode_encode_url_err rest htail
            have hc2 := url_table_not_special _ hi2
            have hc3 := url_table_not_special _ hi3
            simp only [encodeChunks, decodeChunks, hp1, hp0]
            rw [if_pos ⟨hc2.1, hc2.2.1⟩]
            simp only [hp2]
            rw [if_pos ⟨hc3.1, hc3.2.1⟩]
            simp only [hp3, ih, Except.map]
          · have hc2 := url_table_not_special _ hi2
            have hc3 := url_table_not_special _ hi3
            simp only [encodeChunks, decodeChunks, hp1, hp0]
            rw [if_pos ⟨hc2.1, hc2.2.1⟩]
            simp only [hp2]
            rw [if_pos ⟨hc3.1, hc3.2.1⟩]
            simp only [herr3]
        · have hc2 := url_table_not_special _ hi2
          simp only [encodeChunks, decodeChunks, hp1, hp0]
          rw [if_pos ⟨hc2.1, hc2.2.1⟩]
          simp only [herr2]
      · simp only [encodeChunks, decodeChunks, hp1, herr0]
    · simp only [encodeChunks, decodeChunks, herr1]

/-! ### Line-break insertion and removal -/

theorem base64_encode_false (s : List Nat) :
    base64_encode s false = encodeChunks encode_table '=' s := rfl

theorem base64_encode_true (s : List Nat) :
    base64_encode s true = encodeChunks encode_table_url '.' s := rfl

/-- Removing all newline characters from the output of the insertion loop
recovers its input, provided the input contained no newline. -/
theorem insertGo_filter (d : Nat) : ∀ (fuel : Nat) (s : List Char), '\n' ∉ s →
    (insertGo d fuel s).filter (fun c => c != '\n') = s := by
  intro fuel
  induction fuel with
  | zero =>
    intro s hs
    simp only [insertGo]
    exact List.filter_eq_self.mpr (fun a ha => by
      simp only [bne_iff_ne, ne_eq]
      exact fun hE => hs (hE ▸ ha))
  | succ fuel ih =>
    intro s hs
    simp only [insertGo]
    by_cases hle : s.length ≤ d
    · rw [if_pos hle]
      exact List.filter_eq_self.mpr (fun a ha => by
        simp only [bne_iff_ne, ne_eq]
        exact fun hE => hs (hE ▸ ha))
    · rw [if_neg hle]
      have hdrop : '\n' ∉ s.drop d := fun hmem => hs (List.drop_subset d s hmem)
      rw [List.filter_append, List.filter_cons]
      rw [if_neg (by decide : ¬(('\n' != '\n') = true))]
      rw [List.filter_eq_self.mpr (fun a ha => by
        simp only [bne_iff_ne, ne_eq]
        exact fun hE => hs (hE ▸ List.take_subset d s ha))]
      rw [ih _ hdrop, List.take_append_drop]

theorem filter_insert_linebreaks (str : List Char) (d : Nat) (h : '\n' ∉ str) :
    (insert_linebreaks str d).filter (fun c => c != '\n') = str := by
  unfold insert_linebreaks
  by_cases hstr : str = []
  · simp [hstr]
  · rw [if_neg hstr]
    exact insertGo_filter d str.length str h

/-- The standard-alphabet encoder never emits a newline character. -/
theorem encode_no_newline (B : List Nat) : '\n' ∉ base64_encode B false := by
  intro hmem
  rw [base64_encode_false] at hmem
  rcases encodeChunks_mem _ _ _ _ hmem with ⟨i, hi, hc⟩ | hc
  · exact (encode_table_not_special i hi).2.2 hc.symm
  · exact absurd hc (by decide)

/-! ### Claim theorems: round trips, length law, known vectors -/

/-- C1: for every byte sequence `B`, decoding the standard-alphabet
encoding with no line-break stripping returns `B` exactly. -/
theorem base64_roundtrip_standard (B : List Nat) (h : ∀ b ∈ B, b < 256) :
    base64_decode (base64_encode B false) false = .ok B := by
  rcases B with _ | ⟨b, t⟩
  · rfl
  · have hne : base64_encode (b :: t) false ≠ [] := by
      intro hE
      have hlen := encodeChunks_length encode_table '=' (b :: t)
      rw [← base64_encode_false, hE] at hlen
      simp at hlen
      omega
    have hred : base64_decode (base64_encode (b :: t) false) false =
        decodeChunks (base64_encode (b :: t) false) := by
      simp [base64_decode, hne]
    rw [hred, base64_encode_false]
    exact decode_encode_std _ h

theorem base64_roundtrip_standard_witness :
    base64_decode (base64_encode [72, 105] false) false = .ok [72, 105] :=
  base64_roundtrip_standard [72, 105] (by decide)

/-- C2 (counterexample): the URL-safe round trip fails on the byte
sequence `[255]`, whose encoding starts with `'_'`; the reverse table is
built from the standard alphabet only, so decoding raises the invalid
input error instead of returning the bytes. -/
theorem base64_url_roundtrip_counterexample :
    base64_decode (base64_encode [255] true) false = .error .invalidInput ∧
    base64_decode (base64_encode [255] true) false ≠ .ok [255] ∧ (255 : Nat) < 256 := by
  decide

/-- C2 (amended): the URL-safe round trip holds exactly when the encoded
form contains neither `'-'` nor `'_'` (no 6-bit group is 62 or 63): in
that case decode, which accepts the `'.'` padding, returns the bytes;
otherwise decode fails with the invalid-input error, because the reverse
table is built from the standard alphabet only. -/
theorem base64_roundtrip_urlsafe_amended (B : List Nat) (h : ∀ b ∈ B, b < 256) :
    ((∀ c ∈ base64_encode B true, c ≠ '-' ∧ c ≠ '_') →
      base64_decode (base64_encode B true) false = .ok B) ∧
    ((∃ c ∈ base64_encode B true, c = '-' ∨ c = '_') →
      base64_decode (base64_encode B true) false = .error .invalidInput) := by
  constructor
  · intro hnd
    rw [base64_encode_true] at hnd
    rcases B with _ | ⟨b, t⟩
    · rfl
    · have hne : base64_encode (b :: t) true ≠ [] := by
        intro hE
        have hlen := encodeChunks_length encode_table_url '.' (b :: t)
        rw [← base64_encode_true, hE] at hlen
        simp at hlen
        omega
      have hred : base64_decode (base64_encode (b :: t) true) false =
          decodeChunks (base64_encode (b :: t) true) := by
        simp [base64_decode, hne]
      rw [hred, base64_encode_true]
      exact decode_encode_url _ h hnd
  · intro hex
    have hne : base64_encode B true ≠ [] := by
      intro hE
      obtain ⟨c, hc, _⟩ := hex
      rw [hE] at hc
      simp at hc
    have hred : base64_decode (base64_encode B true) false =
        decodeChunks (base64_encode B true) := by
      simp [base64_decode, hne]
    rw [hred, base64_encode_true]
    rw [base64_encode_true] at hex
    refine decode_encode_url_err B ?_
    intro hall
    obtain ⟨c, hc, hd⟩ := hex
    rcases hd with rfl | rfl
    · exact (hall _ hc).1 rfl
    · exact (hall _ hc).2 rfl

theorem base64_roundtrip_urlsafe_witness :
    base64_decode (base64_encode [77, 97] true) false = .ok [77, 97] ∧
    base64_decode (base64_encode [255] true) false = .error .invalidInput :=
  ⟨(base64_roundtrip_urlsafe_amended [77, 97] (by decide)).1 (by decide),
   (base64_roundtrip_urlsafe_amended [255] (by decide)).2 (by decide)⟩

/-- C3: MIME-wrapped encoding (76-column line breaks) followed by decoding
with the line-break-stripping flag set returns the input bytes exactly. -/
theorem base64_mime_roundtrip (B : List Nat) (h : ∀ b ∈ B, b < 256) :
    base64_decode (base64_encode_mime B) true = .ok B := by
  rcases B with _ | ⟨b, t⟩
  · rfl
  · have hnn : '\n' ∉ base64_encode (b :: t) false := encode_no_newline (b :: t)
    have hne : base64_encode (b :: t) false ≠ [] := by
      intro hE
      have hlen := encodeChunks_length encode_table '=' (b :: t)
      rw [← base64_encode_false, hE] at hlen
      simp at hlen
      omega
    have hmime : base64_encode_mime (b :: t) =
        insert_linebreaks (base64_encode (b :: t) false) 76 := rfl
    have hfilter := filter_insert_linebreaks (base64_encode (b :: t) false) 76 hnn
    by_cases hm : insert_linebreaks (base64_encode (b :: t) false) 76 = []
    · rw [hm] at hfilter
      simp at hfilter
      exact absurd hfilter hne
    · rw [hmime]
      simp only [base64_decode, hfilter]
      rw [if_neg hm, if_neg hne, base64_encode_false]
      simp only [if_true]
      exact decode_encode_std _ h

theorem base64_mime_roundtrip_witness :
    base64_decode (base64_encode_mime [77, 97, 110]) true = .ok [77, 97, 110] :=
  base64_mime_roundtrip [77, 97, 110] (by decide)

/-- C4: for every byte sequence `B` and either flag, the encoded length is
`ceil(len(B)/3) * 4` (written `(len(B) + 2) / 3 * 4` in truncating natural
division), and the empty sequence encodes to the empty string. -/
theorem base64_encode_length (B : List Nat) (url : Bool) :
    (base64_encode B url).length = (B.length + 2) / 3 * 4 ∧
    base64_encode [] url = [] := by
  refine ⟨?_, ?_⟩
  · cases url
    · rw [base64_encode_false]; exact encodeChunks_length _ _ B
    · rw [base64_encode_true]; exact encodeChunks_length _ _ B
  · cases url <;> rfl

/-- C6: the named test vectors: `encode("Man") = "TWFu"`,
`decode("TWFu") = "Man"`, `encode("M") = "TQ=="`, and
`encode("light work.") = "bGlnaHQgd29yay4="` (bytes given as ASCII
codes). -/
theorem base64_known_vectors :
    base64_encode (("Man").toList.map Char.toNat) false = ("TWFu").toList ∧
    base64_decode (("TWFu").toList) false = .ok (("Man").toList.map Char.toNat) ∧
    base64_encode (("M").toList.map Char.toNat) false = ("TQ==").toList ∧
    base64_encode (("light work.").toList.map Char.toNat) false =
      ("bGlnaHQgd29yay4=").toList := by
  decide

/-! ### Shape of the final chunk and padding -/

/-- Trailing-chunk shape of the encoder output, for any alphabet whose
entries are members of the table and distinct from the padding
character. -/
theorem encodeChunks_trailing (table : List Char) (pad : Char)
    (hmem : ∀ i, i < 64 → table.getD i 'A' ∈ table)
    (hne : ∀ i, i < 64 → table.getD i 'A' ≠ pad) :
    ∀ B : List Nat,
      (B.length % 3 = 1 → ∃ p c1 c2, encodeChunks table pad B = p ++ [c1, c2, pad, pad] ∧
        c1 ∈ table ∧ c2 ∈ table ∧ c1 ≠ pad ∧ c2 ≠ pad) ∧
      (B.length % 3 = 2 → ∃ p c1 c2 c3, encodeChunks table pad B = p ++ [c1, c2, c3, pad] ∧
        c1 ∈ table ∧ c2 ∈ table ∧ c3 ∈ table ∧ c1 ≠ pad ∧ c2 ≠ pad ∧ c3 ≠ pad)
  | [] => by constructor <;> (intro h; simp at h)
  | [b0] => by
    have hb := encode_index_bounds b0 0 0
    have hi1 : (b0 &&& 0x03) <<< 4 < 64 := by have := hb.2.1; omega
    constructor
    · intro _
      exact ⟨[], _, _, by simp [encodeChunks], hmem _ hb.1, hmem _ hi1,
        hne _ hb.1, hne _ hi1⟩
    · intro h; simp at h
  | [b0, b1] => by
    have hb := encode_index_bounds b0 b1 0
    have hi2 : (b1 &&& 0x0f) <<< 2 < 64 := by have := hb.2.2.1; omega
    constructor
    · intro h; simp at h
    · intro _
      exact ⟨[], _, _, _, by simp [encodeChunks], hmem _ hb.1, hmem _ hb.2.1, hmem _ hi2,
        hne _ hb.1, hne _ hb.2.1, hne _ hi2⟩
  | b0 :: b1 :: b2 :: rest => by
    have ih := encodeChunks_trailing table pad hmem hne rest
    constructor
    · intro hlen
      have hr : rest.length % 3 = 1 := by simp at hlen; omega
      obtain ⟨p, c1, c2, hE, hm1, hm2, hn1, hn2⟩ := ih.1 hr
      refine ⟨table.getD ((b0 &&& 0xfc) >>> 2) 'A' ::
        table.getD (((b0 &&& 0x03) <<< 4) + ((b1 &&& 0xf0) >>> 4)) 'A' ::
        table.getD (((b1 &&& 0x0f) <<< 2) + ((b2 &&& 0xc0) >>> 6)) 'A' ::
        table.getD (b2 &&& 0x3f) 'A' :: p, c1, c2, ?_, hm1, hm2, hn1, hn2⟩
      simp [encodeChunks, hE]
    · intro hlen
      have hr : rest.length % 3 = 2 := by simp at hlen; omega
      obtain ⟨p, c1, c2, c3, hE, hm1, hm2, hm3, hn1, hn2, hn3⟩ := ih.2 hr
      refine ⟨table.getD ((b0 &&& 0xfc) >>> 2) 'A' ::
        table.getD (((b0 &&& 0x03) <<< 4) + ((b1 &&& 0xf0) >>> 4)) 'A' ::
        table.getD (((b1 &&& 0x0f) <<< 2) + ((b2 &&& 0xc0) >>> 6)) 'A' ::
        table.getD (b2 &&& 0x3f) 'A' :: p, c1, c2, c3, ?_, hm1, hm2, hm3, hn1, hn2, hn3⟩
      simp [encodeChunks, hE]

/-- C7: an input of length ≡ 1 (mod 3) ends in 2 data characters followed
by exactly 2 padding characters, an input of length ≡ 2 (mod 3) ends in 3
data characters followed by exactly 1 padding character; the padding
character is `'='` for the standard alphabet and `'.'` for URL-safe, and
data characters are alphabet members distinct from the padding. -/
theorem base64_padding_structure (B : List Nat) (url : Bool) :
    (B.length % 3 = 1 → ∃ p c1 c2,
      base64_encode B url =
        p ++ [c1, c2, if url then '.' else '=', if url then '.' else '='] ∧
      c1 ∈ (if url then encode_table_url else encode_table) ∧
      c2 ∈ (if url then encode_table_url else encode_table) ∧
      c1 ≠ (if url then '.' else '=') ∧ c2 ≠ (if url then '.' else '=')) ∧
    (B.length % 3 = 2 → ∃ p c1 c2 c3,
      base64_encode B url = p ++ [c1, c2, c3, if url then '.' else '='] ∧
      c1 ∈ (if url then encode_table_url else encode_table) ∧
      c2 ∈ (if url then encode_table_url else encode_table) ∧
      c3 ∈ (if url then encode_table_url else encode_table) ∧
      c1 ≠ (if url then '.' else '=') ∧ c2 ≠ (if url then '.' else '=') ∧
      c3 ≠ (if url then '.' else '=')) := by
  cases url
  · have h := encodeChunks_trailing encode_table '='
      encode_table_getD_mem (fun i hi => (encode_table_not_special i hi).1) B
    simpa [base64_encode_false] using h
  · have h := encodeChunks_trailing encode_table_url '.'
      url_table_getD_mem (fun i hi => (url_table_not_special i hi).2.1) B
    simpa [base64_encode_true] using h

theorem base64_padding_structure_witness :
    ∃ p c1 c2, base64_encode [77] false = p ++ [c1, c2, '=', '='] ∧
      c1 ∈ encode_table ∧ c2 ∈ encode_table ∧ c1 ≠ '=' ∧ c2 ≠ '=' := by
  have h := (base64_padding_structure [77] false).1 (by decide)
  simpa using h

/-! ### The reverse lookup table -/

/-- C8: the reverse table has `max_encode_char` entries, maps each
alphabet character to its index, has exactly 64 non-sentinel entries, and
every entry at a character code not used by the alphabet holds the
sentinel.  (Immutability after construction is inherent: the table is a
`constexpr` constant in the source and a constant definition here.) -/
theorem decode_table_invariant :
    decode_table.length = max_encode_char ∧
    (∀ i, i < 64 →
      decode_table.getD ((encode_table.getD i 'A').toNat) decode_placeholder = i) ∧
    decode_table.countP (fun v => v != decode_placeholder) = 64 ∧
    (∀ j, j < max_encode_char → (∀ i, i < 64 → (encode_table.getD i 'A').toNat ≠ j) →
      decode_table.getD j decode_placeholder = decode_placeholder) := by
  refine ⟨by decide, by decide, by decide, by decide⟩

theorem decode_table_invariant_witness :
    decode_table.getD ((encode_table.getD 0 'A').toNat) decode_placeholder = 0 ∧
    decode_table.getD 33 decode_placeholder = decode_placeholder :=
  ⟨decode_table_invariant.2.1 0 (by decide),
   decode_table_invariant.2.2.2 33 (by decide) (by decide)⟩

/-! ### The skipped fourth character of a padded chunk -/

/-- C9: when a chunk's 3rd character is a padding character (`'='` or
`'.'`), the decoder emits only that chunk's first byte and never inspects
the 4th character, so the result is the same for any 4th character; in
particular `decode("TQ=!", false)` succeeds and returns `"M"` (byte 77). -/
theorem decode_skips_fourth_after_padding (a b c d : Char) (s : List Char) (pad : Char)
    (hpad : pad = '=' ∨ pad = '.') (pa pb : Nat)
    (ha : pos_of_char a = .ok pa) (hb : pos_of_char b = .ok pb) :
    decodeChunks (a :: b :: pad :: c :: s) = decodeChunks (a :: b :: pad :: d :: s) ∧
    decodeChunks (a :: b :: pad :: c :: s) =
      Except.map (fun t => ((pa <<< 2) + ((pb &&& 0x30) >>> 4)) :: t) (decodeChunks s) ∧
    base64_decode (("TQ=!").toList) false = .ok [77] := by
  have hcond : ¬(pad ≠ '=' ∧ pad ≠ '.') := by
    rcases hpad with rfl | rfl <;> simp
  refine ⟨?_, ?_, by decide⟩
  · simp only [decodeChunks, hb, ha]
    rw [if_neg hcond, if_neg hcond]
  · simp only [decodeChunks, hb, ha]
    rw [if_neg hcond]

theorem decode_skips_fourth_witness :
    decodeChunks (("TQ=!").toList) = decodeChunks (("TQ=A").toList) ∧
    decodeChunks (("TQ=!").toList) =
      Except.map (fun t => ((19 <<< 2) + ((16 &&& 0x30) >>> 4)) :: t) (decodeChunks []) ∧
    base64_decode (("TQ=!").toList) false = .ok [77] :=
  decode_skips_fourth_after_padding 'T' 'Q' '!' 'A' [] '=' (Or.inl rfl) 19 16
    (by decide) (by decide)

/-! ### Error propagation in the decoder -/

/-- If decoding the tail after a full chunk fails, decoding the whole
input fails (with the tail's error or with one arising in the chunk). -/
theorem decodeChunks_error_tail (c0 c1 c2 c3 : Char) (rest : List Char)
    (h : ∃ e, decodeChunks rest = .error e) :
    ∃ e, decodeChunks (c0 :: c1 :: c2 :: c3 :: rest) = .error e := by
  obtain ⟨e, he⟩ := h
  simp only [decodeChunks]
  split
  · exact ⟨_, rfl⟩
  · split
    · exact ⟨_, rfl⟩
    · split
      · split
        · exact ⟨_, rfl⟩
        · split
          · split
            · exact ⟨_, rfl⟩
            · exact ⟨e, by rw [he]; rfl⟩
          · exact ⟨e, by rw [he]; rfl⟩
      · exact ⟨e, by rw [he]; rfl⟩

/-- A chunk whose first or second character is invalid makes the decoder
fail. -/
theorem decodeChunks_head_invalid (c0 c1 : Char) (rest : List Char)
    (h : pos_of_char c0 = .error .invalidInput ∨ pos_of_char c1 = .error .invalidInput) :
    ∃ e, decodeChunks (c0 :: c1 :: rest) = .error e := by
  rcases rest with _ | ⟨c2, _ | ⟨c3, r⟩⟩ <;>
  · simp only [decodeChunks]
    split
    · exact ⟨_, rfl⟩
    · split
      · exact ⟨_, rfl⟩
      · rcases h with h | h <;> simp_all

/-- An invalid character at a position `p` with `p % 4 ∈ {0, 1}` (the
first or second slot of some chunk, always inspected) makes the decoding
loop fail. -/
theorem decodeChunks_invalid_at (p : Nat) : ∀ s : List Char, p < s.length → p % 4 ≤ 1 →
    pos_of_char (s.getD p 'A') = .error .invalidInput →
    ∃ e, decodeChunks s = .error e := by
  induction p using Nat.strong_induction_on with
  | _ p ih =>
    intro s hp h4 hinv
    match s, hp with
    | [c0], hp =>
      exact ⟨.outOfRange, rfl⟩
    | c0 :: c1 :: rest, hp =>
      match p, h4 with
      | 0, _ =>
        refine decodeChunks_head_invalid c0 c1 rest (Or.inl ?_)
        simpa using hinv
      | 1, _ =>
        refine decodeChunks_head_invalid c0 c1 rest (Or.inr ?_)
        simpa using hinv
      | (q + 4), h4 =>
        match rest with
        | c2 :: c3 :: r =>
          refine decodeChunks_error_tail c0 c1 c2 c3 r (ih q (by omega) r ?_ (by omega) ?_)
          · simp at hp; omega
          · simpa using hinv
        | [] | [c2] => simp at hp; omega

/-! ### Claims C5 and C10 -/

/-- C5 (counterexample): the input `"AB=!"` contains `'!'`, which is
outside the valid alphabet/padding set, yet decode succeeds and returns a
byte, because `'!'` sits in the never-inspected 4th slot of a chunk whose
3rd character is padding.  So not every input containing an invalid
character is rejected. -/
theorem base64_invalid_char_counterexample :
    base64_decode (("AB=!").toList) false = .ok [0] ∧
    pos_of_char '!' = .error .invalidInput ∧ '!' ≠ '=' ∧ '!' ≠ '.' := by
  decide

/-- C5 (amended): an invalid character in an inspected position — any
position `p` with `p % 4 ∈ {0, 1}` — makes decode fail with no bytes
returned (failure yields an error value, never a partial buffer);
in particular `decode("A!B=", false)` fails with the invalid-input
error.  (An invalid character in the skipped 4th slot of a padded chunk
is not inspected; see the counterexample.) -/
theorem base64_invalid_char_rejection_amended :
    (∀ (s : List Char) (p : Nat), p < s.length → p % 4 ≤ 1 →
      pos_of_char (s.getD p 'A') = .error .invalidInput →
      ∃ e, base64_decode s false = .error e) ∧
    base64_decode (("A!B=").toList) false = .error .invalidInput := by
  constructor
  · intro s p hp h4 hinv
    have hne : s ≠ [] := by
      intro h
      rw [h] at hp
      simp at hp
    have hred : base64_decode s false = decodeChunks s := by simp [base64_decode, hne]
    rw [hred]
    exact decodeChunks_invalid_at p s hp h4 hinv
  · decide

theorem base64_invalid_char_witness :
    ∃ e, base64_decode (("!A").toList) false = .error e :=
  base64_invalid_char_rejection_amended.1 (("!A").toList) 0 (by decide) (by decide)
    (by decide)

/-- A character with a successful reverse lookup is not a padding
character (padding characters are absent from the reverse table). -/
theorem pos_ok_not_pad (c : Char) (v : Nat) (h : pos_of_char c = .ok v) :
    c ≠ '=' ∧ c ≠ '.' := by
  constructor <;> rintro rfl
  · rw [pos_of_char_pad.1] at h
    exact Except.noConfusion h
  · rw [pos_of_char_pad.2] at h
    exact Except.noConfusion h

/-- On an input of length ≡ 1 (mod 4) the decoding loop always fails. -/
theorem decodeChunks_mod4_one_err : ∀ s : List Char, s.length % 4 = 1 →
    ∃ e, decodeChunks s = .error e
  | [] => by intro h; simp at h
  | [_] => fun _ => ⟨.outOfRange, rfl⟩
  | [_, _] => by intro h; simp at h
  | [_, _, _] => by intro h; simp at h
  | c0 :: c1 :: c2 :: c3 :: rest => by
    intro hlen
    have hr : rest.length % 4 = 1 := by simp at hlen; omega
    exact decodeChunks_error_tail c0 c1 c2 c3 rest (decodeChunks_mod4_one_err rest hr)

/-- On an input of length ≡ 1 (mod 4) all of whose characters are valid
alphabet characters, the decoding loop reaches the final 1-character
chunk and fails with the out-of-range error from the bounds-checked
access to the missing 2nd character. -/
theorem decodeChunks_mod4_one_valid : ∀ s : List Char, s.length % 4 = 1 →
    (∀ c ∈ s, ∃ v, pos_of_char c = .ok v) →
    decodeChunks s = .error .outOfRange
  | [] => by intro h _; simp at h
  | [_] => fun _ _ => rfl
  | [_, _] => by intro h _; simp at h
  | [_, _, _] => by intro h _; simp at h
  | c0 :: c1 :: c2 :: c3 :: rest => by
    intro hlen hval
    obtain ⟨p0, hp0⟩ := hval c0 (by simp)
    obtain ⟨p1, hp1⟩ := hval c1 (by simp)
    obtain ⟨p2, hp2⟩ := hval c2 (by simp)
    obtain ⟨p3, hp3⟩ := hval c3 (by simp)
    have hc2 := pos_ok_not_pad c2 p2 hp2
    have hc3 := pos_ok_not_pad c3 p3 hp3
    have hr : rest.length % 4 = 1 := by simp at hlen; omega
    have ih := decodeChunks_mod4_one_valid rest hr (fun c hc => hval c (by simp [hc]))
    simp only [decodeChunks, hp1, hp0]
    rw [if_pos hc2]
    simp only [hp2]
    rw [if_pos hc3]
    simp only [hp3, ih, Except.map]

/-- C10 (counterexample): `"!AAAA"` is a non-empty input of length ≡ 1
(mod 4), but decode fails with the invalid-input error raised for the
unrecognized `'!'` in the first chunk, not with the distinct out-of-range
error the claim requires for every such input. -/
theorem decode_len_mod4_counterexample :
    (("!AAAA").toList).length % 4 = 1 ∧ ("!AAAA").toList ≠ [] ∧
    base64_decode (("!AAAA").toList) false = .error .invalidInput ∧
    DecodeError.invalidInput ≠ DecodeError.outOfRange := by
  decide

/-- C10 (amended): under either flag setting, every non-empty input whose
length — after newline removal when the strip flag is set — is ≡ 1
(mod 4) makes decode fail with an error and no byte result; when
additionally every remaining character is a valid alphabet character, the
failure is the distinct out-of-range error of the bounds-checked access
to the missing mandatory 2nd character of the final chunk, not the
invalid-input error. -/
theorem decode_len_mod4_one_amended :
    (∀ s : List Char, s ≠ [] → s.length % 4 = 1 →
      (∃ e, base64_decode s false = .error e) ∧
      ((∀ c ∈ s, ∃ v, pos_of_char c = .ok v) →
        base64_decode s false = .error .outOfRange)) ∧
    (∀ s : List Char, s ≠ [] → (s.filter (fun c => c != '\n')).length % 4 = 1 →
      (∃ e, base64_decode s true = .error e) ∧
      ((∀ c ∈ s.filter (fun c => c != '\n'), ∃ v, pos_of_char c = .ok v) →
        base64_decode s true = .error .outOfRange)) := by
  constructor
  · intro s hne hlen
    have hred : base64_decode s false = decodeChunks s := by simp [base64_decode, hne]
    refine ⟨?_, fun hval => ?_⟩
    · rw [hred]
      exact decodeChunks_mod4_one_err s hlen
    · rw [hred]
      exact decodeChunks_mod4_one_valid s hlen hval
  · intro s hne hlen
    have hcne : s.filter (fun c => c != '\n') ≠ [] := by
      intro h
      rw [h] at hlen
      simp at hlen
    have hred : base64_decode s true = decodeChunks (s.filter (fun c => c != '\n')) := by
      simp [base64_decode, hne, hcne]
    refine ⟨?_, fun hval => ?_⟩
    · rw [hred]
      exact decodeChunks_mod4_one_err _ hlen
    · rw [hred]
      exact decodeChunks_mod4_one_valid _ hlen hval

theorem decode_len_mod4_one_witness :
    base64_decode (("AAAAA").toList) false = .error .outOfRange ∧
    base64_decode (("AAAA\nA").toList) true = .error .outOfRange := by
  constructor
  · refine (decode_len_mod4_one_amended.1 (("AAAAA").toList) (by decide) (by decide)).2 ?_
    intro c hc
    simp at hc
    subst hc
    exact ⟨0, by decide⟩
  · refine (decode_len_mod4_one_amended.2 (("AAAA\nA").toList) (by decide) (by decide)).2 ?_
    intro c hc
    have hF : (("AAAA\nA").toList).filter (fun c => c != '\n') = ("AAAAA").toList := by
      decide
    rw [hF] at hc
    simp at hc
    subst hc
    exact ⟨0, by decide⟩

